import Mathlib

/-!
Verification development for the Sonata streaming markdown renderer.

The JavaScript sources are shallowly embedded as executable Lean
definitions:

* string/regex helpers model the exact JavaScript regular expressions
  used by the segmenters;
* the block segmenter of streaming-markdown.js (parseBlocksA) and of the
  older vanilla renderer (parseBlocksV2) are modelled as state machines
  consuming one line per step, which is the explicit-state rendering of
  the index-based while loops in the source;
* the Mermaid manager with last-valid-SVG fallback (renderMermaidE),
  the Shiki highlight wrapper with plain-text fallback (highlightE), and
  the StreamingRenderer.update diff/dispatch loop (updateA) are embedded
  with Except results wherever the JavaScript can throw, and with
  engines passed in as possibly-failing functions.
-/

namespace Sonata

/-! ## JavaScript character classes and string helpers -/

/-- JavaScript whitespace for the purposes of the regex escapes used by the
renderer (space, tab, CR, LF, vertical tab, form feed). -/
def isJsSpace (c : Char) : Bool :=
  c = ' ' ∨ c = '\t' ∨ c = '\r' ∨ c = '\n' ∨ c = '\x0b' ∨ c = '\x0c'

/-- JavaScript word character as matched by the backslash-w class. -/
def isJsWord (c : Char) : Bool :=
  c.isAlpha ∨ c.isDigit ∨ c = '_'

/-- The trim of a character list: drop leading and trailing whitespace;
models the JavaScript String.prototype.trim call. -/
def jsTrimList (cs : List Char) : List Char :=
  ((cs.dropWhile isJsSpace).reverse.dropWhile isJsSpace).reverse

/-- The trim of a string (JavaScript String.prototype.trim). -/
def jsTrim (s : String) : String :=
  String.mk (jsTrimList s.toList)

/-- A line is blank exactly when its trim is the empty string, i.e. all of
its characters are whitespace. -/
def isBlankLine (s : String) : Bool :=
  s.toList.all isJsSpace

/-- Prefix test over character lists (executable form of startsWith). -/
def charsPrefix : List Char → List Char → Bool
  | [], _ => true
  | _ :: _, [] => false
  | p :: ps, c :: cs => p = c && charsPrefix ps cs

/-- JavaScript String.prototype.startsWith over the underlying characters. -/
def strStartsWith (s p : String) : Bool :=
  charsPrefix p.toList s.toList

/-- Splitting on the regex matching an optional CR followed by LF, as done by
the split call in streaming-markdown.js (auxiliary, over characters). -/
def splitCrLfAux : List Char → List Char → List String
  | acc, [] => [String.mk acc.reverse]
  | acc, '\n' :: rest => String.mk acc.reverse :: splitCrLfAux [] rest
  | acc, '\r' :: '\n' :: rest => String.mk acc.reverse :: splitCrLfAux [] rest
  | acc, c :: rest => splitCrLfAux (c :: acc) rest

/-- Split a buffer into lines at CRLF or LF, as streaming-markdown.js does. -/
def splitCrLf (s : String) : List String :=
  splitCrLfAux [] s.toList

/-- Splitting on a bare LF (auxiliary, over characters); the older vanilla
renderer splits its buffer this way. -/
def splitLfAux : List Char → List Char → List String
  | acc, [] => [String.mk acc.reverse]
  | acc, c :: rest =>
    if c = '\n' then String.mk acc.reverse :: splitLfAux [] rest
    else splitLfAux (c :: acc) rest

/-- Split a buffer into lines at LF. -/
def splitLf (s : String) : List String :=
  splitLfAux [] s.toList

/-- Join a list of lines with LF, modelling Array.prototype.join. -/
def joinLf (lines : List String) : String :=
  String.intercalate "\n" lines

/-- Lowercase a string (JavaScript toLowerCase on the ASCII tags used here). -/
def jsLower (s : String) : String :=
  String.mk (s.toList.map Char.toLower)

/-! ## Mermaid renderer with last-valid-SVG fallback (mermaid-renderer.js) -/

/-- Per-diagram fallback state, the object stored in the mermaidStates map of
StreamingRenderer: the last successfully rendered SVG, if any, and whether a
render has ever succeeded. -/
structure MermaidState where
  lastValidSvg : Option String
  firstLoaded : Bool
deriving DecidableEq, Repr

/-- The observable content of the mermaid body container: empty, the loading
spinner, a rendered SVG, or the inline parse-error box showing the raw chart
source. -/
inductive MBody where
  | empty
  | spinner
  | svg (s : String)
  | errorBox (chart : String)
deriving DecidableEq, Repr

/-- One call of renderMermaid from mermaid-renderer.js. The diagram engine is
passed in as a function that either returns the rendered SVG or throws. The
spinner is mounted only before the first success; on success the SVG is
stored and mounted; on failure the last valid SVG is redisplayed when one
exists (the catch branch), and otherwise the inline error box with the raw
chart is mounted. The result is an Except because the surrounding code awaits
this call: the catch branches make every path return ok. -/
def renderMermaidE (engine : String → Except String String) (chart : String)
    (state : MermaidState) (content : MBody) :
    Except String (MermaidState × MBody) :=
  let content1 :=
    if ¬state.firstLoaded ∧ state.lastValidSvg = none then MBody.spinner
    else content
  match engine chart with
  | .ok svg => .ok (⟨some svg, true⟩, .svg svg)
  | .error _ =>
    match state.lastValidSvg with
    | some v => .ok (state, if content1 = .empty then .svg v else content1)
    | none => .ok (state, .errorBox chart)

/-- A render attempt as issued by StreamingRenderer.renderBlock: the mermaid
body element is freshly created, so the container content starts empty. -/
def mermaidAttempt (engine : String → Except String String) (chart : String)
    (state : MermaidState) : Except String (MermaidState × MBody) :=
  renderMermaidE engine chart state .empty

/-- Run a sequence of render attempts against one block identity, threading
the fallback state; a hypothetical error result leaves the state unchanged
(no such result occurs, see renderMermaidE_isOk). -/
def mermaidRun (engine : String → Except String String)
    (charts : List String) (state : MermaidState) : MermaidState :=
  charts.foldl
    (fun s c =>
      match mermaidAttempt engine c s with
      | .ok r => r.1
      | .error _ => s)
    state

/-- The SVG of the most recent successful render in a sequence of attempts,
starting from a given remembered value. -/
def lastOkSvg (engine : String → Except String String)
    (charts : List String) (acc : Option String) : Option String :=
  charts.foldl
    (fun a c =>
      match engine c with
      | .ok s => some s
      | .error _ => a)
    acc

/-! ## Shiki highlight wrapper with plain-text fallback (shiki-highlighter.js) -/

/-- The single-character HTML escape used by the highlight fallback: the
regex replaces each ampersand, less-than and greater-than with its entity. -/
def escChar (c : Char) : String :=
  if c = '&' then "&amp;"
  else if c = '<' then "&lt;"
  else if c = '>' then "&gt;"
  else String.mk [c]

/-- Escape a whole string character by character (the global regex replace
over the three escapable characters). -/
def escHtml (s : String) : String :=
  String.join (s.toList.map escChar)

/-- The plain-text pre/code markup built by the catch branch of highlight. -/
def plainPreHtml (preClassName code : String) : String :=
  "<pre class=\"" ++ preClassName ++ "\"><code>" ++ escHtml code
    ++ "</code></pre>"

/-- The exported highlight function of shiki-highlighter.js. The highlighting
engine (the HighlighterManager pipeline, including lazy construction) is
passed in as a function producing the dual-theme HTML pair or throwing; the
catch branch falls back to the escaped plain-text pre/code markup for both
themes. Every path returns ok. -/
def highlightE (engine : String → String → Except String (String × String))
    (code lang preClassName : String) : Except String (String × String) :=
  match engine code lang with
  | .ok r => .ok r
  | .error _ =>
    let html := plainPreHtml preClassName code
    .ok (html, html)

/-! ## Block segmenter of streaming-markdown.js: the fence/list/quote/heading
regular expressions -/

/-- Match of the fence-open regex: start anchor, three backticks, optional
whitespace, an optional capture of one or more word or hyphen characters,
optional whitespace, end anchor. Returns the captured language group (the
empty string when the optional group did not participate), or none when the
line does not match. -/
def fenceOpenA (line : String) : Option String :=
  match line.toList with
  | '`' :: '`' :: '`' :: rest =>
    let r1 := rest.dropWhile isJsSpace
    let w := r1.takeWhile (fun c => isJsWord c ∨ c = '-')
    let r2 := (r1.dropWhile (fun c => isJsWord c ∨ c = '-')).dropWhile isJsSpace
    if r2 = [] then some (String.mk w) else none
  | _ => none

/-- Match of the fence-close regex: three backticks followed only by
whitespace until the end of the line. -/
def fenceCloseA (line : String) : Bool :=
  match line.toList with
  | '`' :: '`' :: '`' :: rest => rest.all isJsSpace
  | _ => false

/-- Match of the list-item alternation at the head of a character list: a
bullet character followed by whitespace, or a digit run followed by a dot and
whitespace. -/
def listMarkerAt (cs : List Char) : Bool :=
  match cs with
  | c :: rest =>
    if c = '-' ∨ c = '*' ∨ c = '+' then
      match rest with
      | c2 :: _ => isJsSpace c2
      | [] => false
    else if c.isDigit then
      match rest.dropWhile Char.isDigit with
      | '.' :: c2 :: _ => isJsSpace c2
      | _ => false
    else false
  | [] => false

/-- The anchored list-open regex: optional leading whitespace then the
list-item alternation. Greedy whitespace matching is exact here because a
bullet or digit is never whitespace. -/
def listOpenA (line : String) : Bool :=
  listMarkerAt (line.toList.dropWhile isJsSpace)

/-- The unanchored list-continuation regex of the source: the same
alternation, but allowed to match anywhere in the line, so this holds exactly
when some suffix of the line starts with a list marker. -/
def listContA (line : String) : Bool :=
  line.toList.tails.any listMarkerAt

/-- The blockquote regex: a greater-than sign at the start of the line (its
optional trailing whitespace does not affect the match test). -/
def quoteA (line : String) : Bool :=
  strStartsWith line ">"

/-- The heading regex: one to six hash characters at the start of the line
followed by a whitespace character. -/
def headingA (line : String) : Bool :=
  let cs := line.toList
  let hashes := cs.takeWhile (· = '#')
  match cs.dropWhile (· = '#') with
  | c :: _ => 1 ≤ hashes.length ∧ hashes.length ≤ 6 ∧ isJsSpace c
  | [] => false

/-- The paragraph continuation test: a non-blank line that does not start
with three backticks. -/
def paraContA (line : String) : Bool :=
  ¬isBlankLine line ∧ ¬strStartsWith line "```"

/-! ## Block segmenter of streaming-markdown.js: the parser -/

/-- A raw block before stable-id assignment: the type string (code, mermaid
or markdown), the language tag, and the content slice. -/
structure RawBlockA where
  type : String
  lang : String
  content : String
deriving DecidableEq, Repr

/-- A block of streaming-markdown.js after id assignment: the id is the
ordinal position joined with the type by a colon. -/
structure BlockA where
  id : String
  type : String
  lang : String
  content : String
deriving DecidableEq, Repr

/-- The scanning mode of the parseBlocks loop: between blocks, or inside a
fenced/list/quote/heading/paragraph region accumulating its lines. This is
the explicit-state form of the index-based while loops of the source; each
consuming loop is entered at its opening line and extended one line at a
time by its continuation regex. -/
inductive AMode where
  | outside
  | fence (type lang : String) (acc : List String)
  | list (acc : List String)
  | quote (acc : List String)
  | heading (acc : List String)
  | para (acc : List String)
deriving DecidableEq, Repr

/-- Classify a line seen while no block is open, entering the matching mode:
fence open (language lowercased, mermaid tag selects the mermaid type), list
open, blockquote, heading, non-blank paragraph, or blank line (no block). -/
def dispatchA (line : String) : AMode :=
  match fenceOpenA line with
  | some cap =>
    let lang := jsLower (jsTrim cap)
    .fence (if lang = "mermaid" then "mermaid" else "code") lang []
  | none =>
    if listOpenA line then .list [line]
    else if quoteA line then .quote [line]
    else if headingA line then .heading [line]
    else if ¬isBlankLine line then .para [line]
    else .outside

/-- The block emitted when the current mode reaches the end of the buffer:
an unclosed fence consumes to the end, and every open markdown region is
flushed. -/
def closeA (mode : AMode) : List RawBlockA :=
  match mode with
  | .outside => []
  | .fence type lang acc => [⟨type, lang, joinLf acc⟩]
  | .list acc => [⟨"markdown", "", joinLf acc⟩]
  | .quote acc => [⟨"markdown", "", joinLf acc⟩]
  | .heading acc => [⟨"markdown", "", joinLf acc⟩]
  | .para acc => [⟨"markdown", "", joinLf acc⟩]

/-- The parseBlocks loop of streaming-markdown.js over the line list: consume
one line per step. A fenced region ends at a close-fence line (which is
consumed); a list region extends while the unanchored list regex matches; a
quote region extends while the line starts a quote; a heading region extends
while lines are non-blank; a paragraph extends while lines are non-blank and
do not start with three backticks. When a region ends at a line, that line is
re-dispatched as a fresh block opener exactly as the source loop re-examines
it at the top of the while loop. -/
def parseAAux : List String → AMode → List RawBlockA
  | [], mode => closeA mode
  | line :: rest, .outside => parseAAux rest (dispatchA line)
  | line :: rest, .fence type lang acc =>
    if fenceCloseA line then
      ⟨type, lang, joinLf acc⟩ :: parseAAux rest .outside
    else
      parseAAux rest (.fence type lang (acc ++ [line]))
  | line :: rest, .list acc =>
    if listContA line then parseAAux rest (.list (acc ++ [line]))
    else ⟨"markdown", "", joinLf acc⟩ :: parseAAux rest (dispatchA line)
  | line :: rest, .quote acc =>
    if quoteA line then parseAAux rest (.quote (acc ++ [line]))
    else ⟨"markdown", "", joinLf acc⟩ :: parseAAux rest (dispatchA line)
  | line :: rest, .heading acc =>
    if ¬isBlankLine line then parseAAux rest (.heading (acc ++ [line]))
    else ⟨"markdown", "", joinLf acc⟩ :: parseAAux rest (dispatchA line)
  | line :: rest, .para acc =>
    if paraContA line then parseAAux rest (.para (acc ++ [line]))
    else ⟨"markdown", "", joinLf acc⟩ :: parseAAux rest (dispatchA line)

/-- The stable id of a block: its ordinal position and its type joined by a
colon. -/
def mkIdA (idx : Nat) (type : String) : String :=
  toString idx ++ ":" ++ type

/-- Assign stable ids by order and type, modelling the final map of
parseBlocks. -/
def assignIds (idx : Nat) : List RawBlockA → List BlockA
  | [] => []
  | b :: bs => ⟨mkIdA idx b.type, b.type, b.lang, b.content⟩ :: assignIds (idx + 1) bs

/-- parseBlocks of streaming-markdown.js: split the buffer at CRLF or LF,
run the block scanner, and assign stable ids by order and type. -/
def parseBlocksA (input : String) : List BlockA :=
  assignIds 0 (parseAAux (splitCrLf input) .outside)

/-! ## Block segmenter of the vanilla streaming renderer (the older
parseBlocks with tilde fences, the closed flag, and the diagram tag set) -/

/-- A block of the vanilla renderer: plain markdown text, a code block with
language, content and closed flag, or a diagram block with its engine name,
language, content and closed flag. -/
inductive BlockV2 where
  | md (text : String)
  | code (lang : String) (text : String) (closed : Bool)
  | diagram (engine : String) (lang : String) (text : String) (closed : Bool)
deriving DecidableEq, Repr

/-- supportsGraphviz of viz-renderer.js: the GraphViz language tags. -/
def supportsGraphviz (lang : String) : Bool :=
  let l := jsLower lang
  l = "dot" ∨ l = "graphviz" ∨ l = "viz"

/-- Match of the vanilla fence-open regex: a run of three or more backticks
or three or more tildes, optional whitespace, a greedy capture of characters
that are neither whitespace nor backticks, and the remainder of the line.
Returns the tick run and the two captures. -/
def fenceRunV2 (fc : Char) (cs : List Char) :
    Option (String × String × String) :=
  if 3 ≤ (cs.takeWhile (· = fc)).length then
    some (String.mk (cs.takeWhile (· = fc)),
      String.mk (((cs.dropWhile (· = fc)).dropWhile isJsSpace).takeWhile
        (fun c => ¬isJsSpace c ∧ c ≠ '`')),
      String.mk (((cs.dropWhile (· = fc)).dropWhile isJsSpace).dropWhile
        (fun c => ¬isJsSpace c ∧ c ≠ '`')))
  else none

def fenceOpenV2 (line : String) : Option (String × String × String) :=
  match line.toList with
  | '`' :: _ => fenceRunV2 '`' line.toList
  | '~' :: _ => fenceRunV2 '~' line.toList
  | _ => none

/-- First match of the language-dash capture regex inside a string: scan left
to right for the literal prefix, then capture the following non-whitespace
run. -/
def languageDashAt (cs : List Char) : Option String :=
  if cs.take 9 = "language-".toList then
    match (cs.drop 9).takeWhile (fun c => ¬isJsSpace c) with
    | [] => none
    | w => some (String.mk w)
  else none

/-- Scan a character list for the first language-dash match. -/
def languageDashSearch : List Char → Option String
  | [] => none
  | c :: rest =>
    match languageDashAt (c :: rest) with
    | some w => some w
    | none => languageDashSearch rest

/-- The language extraction of the vanilla parser: the trimmed second capture
is the language; if that capture is empty, a language-dash token found in the
captures supplies it. -/
def v2Lang (m2 m3 : String) : String :=
  let lang := jsTrim m2
  let rest := jsTrim m3
  match languageDashSearch (lang ++ " " ++ rest).toList with
  | some w => if lang = "" then w else lang
  | none => lang

/-- Build the fenced block of the vanilla parser from the lowercased
language, classifying it into the diagram set (mermaid, the GraphViz tags,
svg, d3-graphviz, d3) or a code block whose empty language falls back to the
text tag. -/
def classifyV2 (language : String) (text : String) (closed : Bool) : BlockV2 :=
  if language = "mermaid" then .diagram "mermaid" "mermaid" text closed
  else if supportsGraphviz language then .diagram "viz" language text closed
  else if language = "svg" then .diagram "svg" "svg" text closed
  else if language = "d3-graphviz" ∨ language = "d3" then
    .diagram (if language = "d3-graphviz" then "d3-graphviz" else "d3")
      language text closed
  else .code (if language = "" then "text" else language) text closed

/-- The markdown flush of the vanilla parser: buffered lines become one
markdown block; an empty buffer flushes nothing. -/
def flushV2 (buf : List String) : List BlockV2 :=
  match buf with
  | [] => []
  | _ => [.md (joinLf buf)]

/-- The scanning mode of the vanilla parser: accumulating markdown lines, or
inside a fence opened by a given tick run with a given language. -/
inductive V2Mode where
  | md (buf : List String)
  | fence (ticks lang : String) (acc : List String)
deriving DecidableEq, Repr

/-- The vanilla parseBlocks loop: fence-open lines flush the markdown buffer
and enter a fence; inside a fence, a line that starts with the tick run and
trims to exactly the tick run closes it; end of input closes an open fence
as unclosed and flushes the buffer. -/
def parseV2Aux : List String → V2Mode → List BlockV2
  | [], .md buf => flushV2 buf
  | [], .fence _ lang acc => [classifyV2 lang (joinLf acc) false]
  | line :: rest, .md buf =>
    match fenceOpenV2 line with
    | some (ticks, m2, m3) =>
      flushV2 buf ++ parseV2Aux rest (.fence ticks (jsLower (v2Lang m2 m3)) [])
    | none => parseV2Aux rest (.md (buf ++ [line]))
  | line :: rest, .fence ticks lang acc =>
    if strStartsWith line ticks ∧ jsTrim line = ticks then
      classifyV2 lang (joinLf acc) true :: parseV2Aux rest (.md [])
    else
      parseV2Aux rest (.fence ticks lang (acc ++ [line]))

/-- parseBlocks of the vanilla streaming renderer: split at LF and run the
scanner. -/
def parseBlocksV2 (input : String) : List BlockV2 :=
  parseV2Aux (splitLf input) (.md [])

/-- The kind of a vanilla block, as a tag string. -/
def blockKindV2 : BlockV2 → String
  | .md _ => "md"
  | .code _ _ _ => "code"
  | .diagram _ _ _ _ => "diagram"

/-- The language field of a vanilla block (empty for markdown). -/
def blockLangV2 : BlockV2 → String
  | .md _ => ""
  | .code l _ _ => l
  | .diagram _ l _ _ => l

/-- The classification stated by the (amended) claim, written from its
words: a lowercased tag in the closed diagram set (the flowchart-diagram tag
mermaid, the GraphViz tags, the raw-vector-graphic tag svg, and the d3 tags)
yields kind Diagram with that tag as language; every other non-empty tag
yields kind Code with that tag as language; the empty tag yields kind Code
with language text. To be compared against classifyV2, the classification
the source performs. -/
def specTagClass (lt : String) : String × String :=
  if lt ∈ ["mermaid", "dot", "graphviz", "viz", "svg", "d3-graphviz", "d3"]
  then ("diagram", lt)
  else ("code", if lt = "" then "text" else lt)

/-! ## The StreamingRenderer update loop of streaming-markdown.js

Display elements are identified by numbers allocated from a counter; the
parent container is its ordered list of mounted children (appendChild moves
an already-mounted element to the end); the blockEls and mermaidStates maps
are association lists with JavaScript Map get/set/delete semantics. The
markup written into an element by the markdown, code and mermaid renderers is
not tracked here (the mermaid body content is modelled separately by
renderMermaidE); what the model tracks is which block indices invoke
renderBlock, how the maps evolve, and which elements stay mounted. The
external converter and sanitizer are pure functions per the interface
contract and are therefore dropped; the fallible highlight and diagram
engines are passed in and can fail arbitrarily. -/

/-- Map lookup on an association list (JavaScript Map.prototype.get). -/
def lookupS {α : Type} : List (String × α) → String → Option α
  | [], _ => none
  | (k', v) :: rest, k => if k' = k then some v else lookupS rest k

/-- Map update on an association list (JavaScript Map.prototype.set):
replace in place, or append a new key at the end. -/
def insertS {α : Type} : List (String × α) → String → α → List (String × α)
  | [], k, v => [(k, v)]
  | (k', v') :: rest, k, v =>
    if k' = k then (k, v) :: rest else (k', v') :: insertS rest k v

/-- Map removal on an association list (JavaScript Map.prototype.delete). -/
def deleteS {α : Type} : List (String × α) → String → List (String × α)
  | [], _ => []
  | (k', v') :: rest, k =>
    if k' = k then rest else (k', v') :: deleteS rest k

/-- appendChild on the parent container: an element already mounted is moved
to the end, otherwise it is appended. -/
def appendChild (children : List Nat) (el : Nat) : List Nat :=
  children.erase el ++ [el]

/-- The per-update loop state: the element map, the per-identity mermaid
fallback states, the mounted children of the container, the element
allocator, and the indices whose blocks were dispatched to renderBlock. -/
structure LoopSt where
  blockEls : List (String × Nat)
  mermaidStates : List (String × MermaidState)
  children : List Nat
  nextEl : Nat
  renders : List Nat
deriving DecidableEq, Repr

/-- The persistent state of one StreamingRenderer between update calls. -/
structure RState where
  prevBlocks : List BlockA
  blockEls : List (String × Nat)
  mermaidStates : List (String × MermaidState)
  children : List Nat
  nextEl : Nat
deriving DecidableEq, Repr

/-- External engines handed to the renderer: the diagram engine and the
dual-theme highlighting engine, either of which may fail on any input. -/
structure Ext where
  mermaidEngine : String → Except String String
  shikiEngine : String → String → Except String (String × String)

/-- The renderBlock dispatch of StreamingRenderer for one block rendered into
element el: a code block runs the highlight wrapper (whose catch makes it
total); a mermaid block reads or creates the identity's fallback state, runs
renderMermaid, and stores the updated state; every other type is the
markdown path, whose effects are confined to the element markup. -/
def renderBlockE (ext : Ext) (b : BlockA) (_el : Nat) (ls : LoopSt) :
    Except String LoopSt :=
  if b.type = "code" then
    match highlightE ext.shikiEngine b.content
        (if b.lang = "" then "text" else b.lang) "code-pre" with
    | .ok _ => .ok ls
    | .error e => .error e
  else if b.type = "mermaid" then
    match renderMermaidE ext.mermaidEngine b.content
        ((lookupS ls.mermaidStates b.id).getD ⟨none, false⟩) .empty with
    | .ok r => .ok { ls with mermaidStates := insertS ls.mermaidStates b.id r.1 }
    | .error e => .error e
  else
    .ok ls

/-- The per-index loop of update over the new block list: an unchanged block
only has its existing element re-appended for order; a changed or new block
is rendered (reusing the id's element when one exists, otherwise allocating
one), recorded in the element map, appended, and its index recorded as a
dispatch. -/
def processBlocksE (ext : Ext) (prevBlocks : List BlockA) :
    List BlockA → Nat → LoopSt → Except String LoopSt
  | [], _, ls => .ok ls
  | b :: bs, i, ls =>
    match lookupS ls.blockEls b.id with
    | some el =>
      if prevBlocks[i]?.any fun p =>
          p.id == b.id && p.content == b.content && p.type == b.type then
        processBlocksE ext prevBlocks bs (i + 1)
          { ls with children := appendChild ls.children el }
      else
        match renderBlockE ext b el ls with
        | .ok ls1 =>
          processBlocksE ext prevBlocks bs (i + 1)
            { ls1 with
                blockEls := insertS ls1.blockEls b.id el,
                children := appendChild ls1.children el,
                renders := ls1.renders ++ [i] }
        | .error e => .error e
    | none =>
      match renderBlockE ext b ls.nextEl { ls with nextEl := ls.nextEl + 1 } with
      | .ok ls1 =>
        processBlocksE ext prevBlocks bs (i + 1)
          { ls1 with
              blockEls := insertS ls1.blockEls b.id ls.nextEl,
              children := appendChild ls1.children ls.nextEl,
              renders := ls1.renders ++ [i] }
      | .error e => .error e

/-- Removal of one stale trailing block: detach its element when it is still
mounted, then delete its element-map entry and its mermaid state. -/
def removeOld (ls : LoopSt) (old : BlockA) : LoopSt :=
  let ls1 :=
    match lookupS ls.blockEls old.id with
    | some el =>
      if el ∈ ls.children then { ls with children := ls.children.erase el }
      else ls
    | none => ls
  { ls1 with
      blockEls := deleteS ls1.blockEls old.id,
      mermaidStates := deleteS ls1.mermaidStates old.id }

/-- The trailing-removal loop of update, over the previous blocks beyond the
new block count. -/
def removeTrailing (olds : List BlockA) (ls : LoopSt) : LoopSt :=
  olds.foldl removeOld ls

/-- StreamingRenderer.update: parse the buffer, walk the new blocks against
the previous ones (dispatching only changed or new positions), remove stale
trailing blocks, and store the new block list. Returns the new renderer
state and the list of indices dispatched to renderBlock. -/
def updateA (ext : Ext) (st : RState) (text : String) :
    Except String (RState × List Nat) :=
  match processBlocksE ext st.prevBlocks (parseBlocksA text) 0
      ⟨st.blockEls, st.mermaidStates, st.children, st.nextEl, []⟩ with
  | .ok ls1 =>
    let ls2 := removeTrailing
      (st.prevBlocks.drop (parseBlocksA text).length) ls1
    .ok (⟨parseBlocksA text, ls2.blockEls, ls2.mermaidStates, ls2.children,
      ls2.nextEl⟩, ls2.renders)
  | .error e => .error e

/-- The empty renderer state of a freshly constructed StreamingRenderer. -/
def initRState : RState := ⟨[], [], [], [], 0⟩

/-! ## Helper lemmas about the mermaid fallback state machine -/

theorem renderMermaidE_isOk (engine : String → Except String String)
    (chart : String) (state : MermaidState) (content : MBody) :
    ∃ r, renderMermaidE engine chart state content = .ok r := by
  unfold renderMermaidE
  cases engine chart with
  | ok svg => exact ⟨_, rfl⟩
  | error e =>
    cases h : state.lastValidSvg with
    | some v => simp only [h]; exact ⟨_, rfl⟩
    | none => simp only [h]; exact ⟨_, rfl⟩

theorem mermaidAttempt_state (engine : String → Except String String)
    (chart : String) (st : MermaidState) :
    (match mermaidAttempt engine chart st with
      | .ok r => r.1
      | .error _ => st) =
      (match engine chart with
        | .ok s => (⟨some s, true⟩ : MermaidState)
        | .error _ => st) := by
  unfold mermaidAttempt renderMermaidE
  cases engine chart with
  | ok s => rfl
  | error e =>
    cases h : st.lastValidSvg with
    | some v => simp only [h]
    | none => simp only [h]

theorem mermaidRun_lastValid (engine : String → Except String String)
    (charts : List String) :
    ∀ st : MermaidState,
      (mermaidRun engine charts st).lastValidSvg =
        lastOkSvg engine charts st.lastValidSvg := by
  induction charts with
  | nil => intro st; rfl
  | cons c cs ih =>
    intro st
    unfold mermaidRun lastOkSvg
    simp only [List.foldl_cons]
    rw [mermaidAttempt_state]
    cases h : engine c with
    | ok s => exact ih ⟨some s, true⟩
    | error e => exact ih st

theorem mermaidRun_firstLoaded (engine : String → Except String String)
    (charts : List String) :
    ∀ st : MermaidState,
      (mermaidRun engine charts st).firstLoaded =
        (st.firstLoaded || charts.any fun c => (engine c).isOk) := by
  induction charts with
  | nil => intro st; simp [mermaidRun]
  | cons c cs ih =>
    intro st
    unfold mermaidRun
    simp only [List.foldl_cons]
    rw [mermaidAttempt_state]
    cases h : engine c with
    | ok s =>
      have := ih ⟨some s, true⟩
      unfold mermaidRun at this
      rw [this]
      simp [h, Except.isOk, Except.toBool]
    | error e =>
      have := ih st
      unfold mermaidRun at this
      rw [this]
      simp [h, Except.isOk, Except.toBool]

theorem lastOkSvg_isSome (engine : String → Except String String)
    (charts : List String) :
    ∀ acc : Option String,
      (lastOkSvg engine charts acc).isSome =
        (acc.isSome || charts.any fun c => (engine c).isOk) := by
  induction charts with
  | nil => intro acc; simp [lastOkSvg]
  | cons c cs ih =>
    intro acc
    unfold lastOkSvg
    simp only [List.foldl_cons]
    cases h : engine c with
    | ok s =>
      have := ih (some s)
      unfold lastOkSvg at this
      rw [this]
      simp [h, Except.isOk, Except.toBool]
    | error e =>
      have := ih acc
      unfold lastOkSvg at this
      rw [this]
      simp [h, Except.isOk, Except.toBool]

/-! ## Claim C2 -/

/-- C2: once a diagram block identity has a successful render remembered,
every failed attempt redisplays the most recent successful SVG (never blank,
never the error box), and a later success replaces it: in particular, the
sequence valid, invalid fragment, valid shows the first SVG after the failed
step and the second SVG after the final step. -/
theorem c2_mermaid_last_valid_fallback :
    (∀ (engine : String → Except String String) (chart v e : String)
      (st : MermaidState),
      st.lastValidSvg = some v → engine chart = .error e →
      mermaidAttempt engine chart st = .ok (st, .svg v)) ∧
    (∀ (engine : String → Except String String) (v1 frag v2 s1 s2 e : String),
      engine v1 = .ok s1 → engine frag = .error e → engine v2 = .ok s2 →
      ∃ st1 st2 st3 : MermaidState,
        mermaidAttempt engine v1 ⟨none, false⟩ = .ok (st1, .svg s1) ∧
        mermaidAttempt engine frag st1 = .ok (st2, .svg s1) ∧
        mermaidAttempt engine v2 st2 = .ok (st3, .svg s2) ∧
        st2 = st1 ∧ st3.lastValidSvg = some s2) := by
  constructor
  · intro engine chart v e st hval heng
    unfold mermaidAttempt renderMermaidE
    rw [heng, hval]
    simp [hval]
  · intro engine v1 frag v2 s1 s2 e h1 h2 h3
    refine ⟨⟨some s1, true⟩, ⟨some s1, true⟩, ⟨some s2, true⟩, ?_, ?_, ?_, rfl, rfl⟩
    · unfold mermaidAttempt renderMermaidE
      rw [h1]
    · unfold mermaidAttempt renderMermaidE
      rw [h2]
      simp
    · unfold mermaidAttempt renderMermaidE
      rw [h3]

/-- Witness for C2: a concrete engine that accepts two charts and rejects a
third, run through the fallback at a concrete state and through the
three-step sequence. -/
theorem c2_witness :
    (mermaidAttempt (fun s => if s = "A" then .ok "sA" else .error "bad")
        "X" ⟨some "sA", true⟩ = .ok (⟨some "sA", true⟩, .svg "sA")) ∧
    (∃ st1 st2 st3 : MermaidState,
      mermaidAttempt
          (fun s => if s = "A" then .ok "sA"
            else if s = "B" then .ok "sB" else .error "bad")
          "A" ⟨none, false⟩ = .ok (st1, .svg "sA") ∧
      mermaidAttempt
          (fun s => if s = "A" then .ok "sA"
            else if s = "B" then .ok "sB" else .error "bad")
          "X" st1 = .ok (st2, .svg "sA") ∧
      mermaidAttempt
          (fun s => if s = "A" then .ok "sA"
            else if s = "B" then .ok "sB" else .error "bad")
          "B" st2 = .ok (st3, .svg "sB") ∧
      st2 = st1 ∧ st3.lastValidSvg = some "sB") :=
  ⟨c2_mermaid_last_valid_fallback.1 _ "X" "sA" "bad" ⟨some "sA", true⟩ rfl
      rfl,
    c2_mermaid_last_valid_fallback.2 _ "A" "X" "B" "sA" "sB" "bad"
      rfl rfl rfl⟩

/-! ## Claim C7 -/

/-- C7 counterexample: with no successful render remembered, a failed render
attempt on a still-open diagram mounts the inline parse-error box with the
raw source, not the pending spinner that the claim predicts for a block that
is not closed (the renderer never consults a closed flag at all). -/
theorem c7_counterexample :
    mermaidAttempt (fun _ => .error "boom") "graph TD" ⟨none, false⟩ =
        .ok (⟨none, false⟩, .errorBox "graph TD") ∧
      MBody.errorBox "graph TD" ≠ MBody.spinner := by
  constructor
  · rfl
  · intro h; cases h

/-- C7 amended: before the first success, a failed render attempt always
mounts the minimal inline error affordance showing the raw chart source,
whether or not the block is closed (closed-ness is never consulted); the
pending spinner appears only while an attempt is in flight, not as the
settled output of a failed attempt. -/
theorem c7_error_box_before_first_success
    (engine : String → Except String String) (chart e : String)
    (st : MermaidState) (content : MBody) :
    st.lastValidSvg = none → engine chart = .error e →
    renderMermaidE engine chart st content = .ok (st, .errorBox chart) := by
  intro hval heng
  unfold renderMermaidE
  rw [heng, hval]

/-- Witness for C7: the amended behaviour at a concrete failing engine and
fresh state. -/
theorem c7_witness :
    renderMermaidE (fun _ => .error "parse error") "graph TD;A-" ⟨none, false⟩
        .empty = .ok (⟨none, false⟩, .errorBox "graph TD;A-") :=
  c7_error_box_before_first_success _ "graph TD;A-" "parse error"
    ⟨none, false⟩ .empty rfl rfl

/-! ## Claim C8 -/

/-- C8: when the highlighting engine fails entirely, the highlight wrapper
returns the escaped plain-text pre/code rendering of the code for both theme
outputs, without raising and without producing empty output. -/
theorem c8_highlight_plaintext_fallback
    (engine : String → String → Except String (String × String))
    (code lang preClassName e : String) :
    engine code lang = .error e →
    highlightE engine code lang preClassName =
        .ok (plainPreHtml preClassName code, plainPreHtml preClassName code) ∧
      plainPreHtml preClassName code ≠ "" := by
  intro heng
  constructor
  · unfold highlightE
    rw [heng]
  · intro h
    have hlen : (plainPreHtml preClassName code).length = 0 := by rw [h]; rfl
    unfold plainPreHtml at hlen
    rw [String.length_append, String.length_append, String.length_append,
      String.length_append] at hlen
    have h12 : ("<pre class=\"" : String).length = 12 := rfl
    omega

/-- Witness for C8: a concrete failing engine on code containing characters
that need escaping. -/
theorem c8_witness :
    highlightE (fun _ _ => .error "engine load failed") "a<b" "python"
        "code-pre" =
      .ok ("<pre class=\"code-pre\"><code>a&lt;b</code></pre>",
        "<pre class=\"code-pre\"><code>a&lt;b</code></pre>") :=
  ((c8_highlight_plaintext_fallback _ "a<b" "python" "code-pre"
      "engine load failed" rfl).1).trans (by rfl)

/-! ## Claim C10 -/

/-- C10: across any sequence of render attempts on one diagram identity,
firstLoaded never falls back from true to false, a failed attempt leaves the
stored state (both lastValidSvg and firstLoaded) unchanged, and starting from
the fresh state the stored SVG is exactly the one produced by the most recent
successful render, with firstLoaded set exactly when some attempt succeeded. -/
theorem c10_mermaid_state_invariants :
    (∀ (engine : String → Except String String) (chart : String)
      (st st' : MermaidState) (out : MBody),
      mermaidAttempt engine chart st = .ok (st', out) →
      st.firstLoaded = true → st'.firstLoaded = true) ∧
    (∀ (engine : String → Except String String) (chart e : String)
      (st st' : MermaidState) (out : MBody),
      engine chart = .error e →
      mermaidAttempt engine chart st = .ok (st', out) → st' = st) ∧
    (∀ (engine : String → Except String String) (charts : List String),
      (mermaidRun engine charts ⟨none, false⟩).lastValidSvg =
          lastOkSvg engine charts none ∧
        ((mermaidRun engine charts ⟨none, false⟩).firstLoaded = true ↔
          (lastOkSvg engine charts none).isSome = true)) := by
  refine ⟨?_, ?_, ?_⟩
  · intro engine chart st st' out h hfl
    unfold mermaidAttempt renderMermaidE at h
    cases heng : engine chart with
    | ok s => rw [heng] at h; cases h; rfl
    | error e =>
      rw [heng] at h
      cases hval : st.lastValidSvg with
      | some v => rw [hval] at h; cases h; exact hfl
      | none => rw [hval] at h; cases h; exact hfl
  · intro engine chart e st st' out heng h
    unfold mermaidAttempt renderMermaidE at h
    rw [heng] at h
    cases hval : st.lastValidSvg with
    | some v => rw [hval] at h; cases h; rfl
    | none => rw [hval] at h; cases h; rfl
  · intro engine charts
    constructor
    · exact mermaidRun_lastValid engine charts ⟨none, false⟩
    · rw [mermaidRun_firstLoaded engine charts ⟨none, false⟩,
        lastOkSvg_isSome engine charts none]
      simp

/-- Witness for C10: the invariants applied at a concrete engine, a concrete
failing attempt, and a concrete attempt sequence. -/
theorem c10_witness :
    ((⟨some "sA", true⟩ : MermaidState).firstLoaded = true) ∧
    ((⟨some "sA", true⟩ : MermaidState) = ⟨some "sA", true⟩) ∧
    (mermaidRun (fun s => if s = "A" then .ok "sA" else .error "bad")
        ["A", "X"] ⟨none, false⟩).lastValidSvg =
      lastOkSvg (fun s => if s = "A" then .ok "sA" else .error "bad")
        ["A", "X"] none :=
  ⟨c10_mermaid_state_invariants.1
      (fun s => if s = "A" then .ok "sA" else .error "bad") "A"
      ⟨some "old", true⟩ ⟨some "sA", true⟩ (.svg "sA") rfl rfl,
    c10_mermaid_state_invariants.2.1
      (fun s => if s = "A" then .ok "sA" else .error "bad") "X" "bad"
      ⟨some "sA", true⟩ ⟨some "sA", true⟩ (.svg "sA") rfl rfl,
    (c10_mermaid_state_invariants.2.2
      (fun s => if s = "A" then .ok "sA" else .error "bad") ["A", "X"]).1⟩

/-! ## Totality of the update entry point -/

theorem highlightE_isOk
    (engine : String → String → Except String (String × String))
    (code lang preClassName : String) :
    ∃ r, highlightE engine code lang preClassName = .ok r := by
  unfold highlightE
  cases engine code lang with
  | ok r => exact ⟨_, rfl⟩
  | error e => exact ⟨_, rfl⟩

theorem renderBlockE_isOk (ext : Ext) (b : BlockA) (el : Nat) (ls : LoopSt) :
    ∃ ls', renderBlockE ext b el ls = .ok ls' := by
  unfold renderBlockE
  by_cases hc : b.type = "code"
  · simp only [hc, if_true]
    obtain ⟨r, hr⟩ := highlightE_isOk ext.shikiEngine b.content
      (if b.lang = "" then "text" else b.lang) "code-pre"
    rw [hr]
    exact ⟨_, rfl⟩
  · by_cases hm : b.type = "mermaid"
    · simp only [hc, hm, if_false, if_true]
      obtain ⟨r, hr⟩ := renderMermaidE_isOk ext.mermaidEngine b.content
        ((lookupS ls.mermaidStates b.id).getD ⟨none, false⟩) .empty
      rw [hr]
      exact ⟨_, rfl⟩
    · simp only [hc, hm, if_false]
      exact ⟨_, rfl⟩

theorem processBlocksE_isOk (ext : Ext) (prevBlocks : List BlockA) :
    ∀ (bs : List BlockA) (i : Nat) (ls : LoopSt),
      ∃ ls', processBlocksE ext prevBlocks bs i ls = .ok ls' := by
  intro bs
  induction bs with
  | nil => intro i ls; exact ⟨ls, rfl⟩
  | cons b rest ih =>
    intro i ls
    unfold processBlocksE
    cases hex : lookupS ls.blockEls b.id with
    | some el =>
      by_cases hskip : (prevBlocks[i]?.any fun p =>
          p.id == b.id && p.content == b.content && p.type == b.type) = true
      · simp only [hskip, if_true]
        exact ih (i + 1) _
      · simp only [hskip, if_false]
        obtain ⟨ls1, h1⟩ := renderBlockE_isOk ext b el ls
        rw [h1]
        exact ih (i + 1) _
    | none =>
      obtain ⟨ls1, h1⟩ := renderBlockE_isOk ext b ls.nextEl
        { ls with nextEl := ls.nextEl + 1 }
      rw [h1]
      exact ih (i + 1) _


/-! ## Association-list map lemmas -/

theorem lookupS_insertS {α : Type} (m : List (String × α)) (k k' : String)
    (v : α) :
    lookupS (insertS m k v) k' = if k = k' then some v else lookupS m k' := by
  induction m with
  | nil => simp [insertS, lookupS]
  | cons kv rest ih =>
    obtain ⟨k0, v0⟩ := kv
    by_cases h0 : k0 = k
    · subst h0
      by_cases h1 : k0 = k'
      · subst h1; simp [insertS, lookupS]
      · simp [insertS, lookupS, h1]
    · by_cases h1 : k0 = k'
      · subst h1
        have : ¬k = k0 := fun hh => h0 hh.symm
        simp [insertS, lookupS, h0, this]
      · simp [insertS, lookupS, h0, h1, ih]

theorem lookupS_isSome_insertS {α : Type} (m : List (String × α))
    (k k' : String) (v : α) (h : (lookupS m k').isSome = true) :
    (lookupS (insertS m k v) k').isSome = true := by
  rw [lookupS_insertS]
  by_cases hk : k = k'
  · simp [hk]
  · simpa [hk] using h

/-! ## Structure of the update loop state -/

theorem renderBlockE_effects (ext : Ext) (b : BlockA) (el : Nat)
    (ls ls' : LoopSt) (h : renderBlockE ext b el ls = .ok ls') :
    ls'.blockEls = ls.blockEls ∧ ls'.children = ls.children ∧
      ls'.renders = ls.renders ∧ ls'.nextEl = ls.nextEl := by
  unfold renderBlockE at h
  by_cases hc : b.type = "code"
  · simp only [hc, if_true] at h
    cases hh : highlightE ext.shikiEngine b.content
        (if b.lang = "" then "text" else b.lang) "code-pre" with
    | ok r => rw [hh] at h; cases h; exact ⟨rfl, rfl, rfl, rfl⟩
    | error e => rw [hh] at h; cases h
  · by_cases hm : b.type = "mermaid"
    · simp only [hc, hm, if_false, if_true] at h
      cases hh : renderMermaidE ext.mermaidEngine b.content
          ((lookupS ls.mermaidStates b.id).getD ⟨none, false⟩) .empty with
      | ok r => rw [hh] at h; cases h; exact ⟨rfl, rfl, rfl, rfl⟩
      | error e => rw [hh] at h; cases h
    · simp only [hc, hm, if_false] at h
      cases h; exact ⟨rfl, rfl, rfl, rfl⟩

theorem processBlocksE_renders_mono (ext : Ext) (prevBlocks : List BlockA) :
    ∀ (bs : List BlockA) (i : Nat) (ls ls' : LoopSt),
      processBlocksE ext prevBlocks bs i ls = .ok ls' →
      ∀ n, n ∈ ls.renders → n ∈ ls'.renders := by
  intro bs
  induction bs with
  | nil => intro i ls ls' h n hn; cases h; exact hn
  | cons b rest ih =>
    intro i ls ls' h n hn
    unfold processBlocksE at h
    cases hex : lookupS ls.blockEls b.id with
    | some el =>
      rw [hex] at h
      by_cases hskip : (prevBlocks[i]?.any fun p =>
          p.id == b.id && p.content == b.content && p.type == b.type) = true
      · simp only [hskip, if_true] at h
        exact ih (i + 1) _ ls' h n hn
      · simp only [hskip, if_false] at h
        cases hr : renderBlockE ext b el ls with
        | ok ls1 =>
          rw [hr] at h
          obtain ⟨_, _, hrend, _⟩ := renderBlockE_effects ext b el ls ls1 hr
          refine ih (i + 1) _ ls' h n ?_
          simp only [hrend]
          exact List.mem_append_left _ hn
        | error e => rw [hr] at h; cases h
    | none =>
      rw [hex] at h
      cases hr : renderBlockE ext b ls.nextEl
          { ls with nextEl := ls.nextEl + 1 } with
      | ok ls1 =>
        rw [hr] at h
        obtain ⟨_, _, hrend, _⟩ := renderBlockE_effects ext b ls.nextEl _ ls1 hr
        refine ih (i + 1) _ ls' h n ?_
        simp only [hrend]
        exact List.mem_append_left _ hn
      | error e => rw [hr] at h; cases h

theorem processBlocksE_renders_bound (ext : Ext) (prevBlocks : List BlockA) :
    ∀ (bs : List BlockA) (i : Nat) (ls ls' : LoopSt),
      processBlocksE ext prevBlocks bs i ls = .ok ls' →
      ∀ n, n ∈ ls'.renders →
        n ∈ ls.renders ∨ (i ≤ n ∧ n < i + bs.length) := by
  intro bs
  induction bs with
  | nil => intro i ls ls' h n hn; cases h; exact Or.inl hn
  | cons b rest ih =>
    intro i ls ls' h n hn
    unfold processBlocksE at h
    cases hex : lookupS ls.blockEls b.id with
    | some el =>
      rw [hex] at h
      by_cases hskip : (prevBlocks[i]?.any fun p =>
          p.id == b.id && p.content == b.content && p.type == b.type) = true
      · simp only [hskip, if_true] at h
        rcases ih (i + 1) _ ls' h n hn with hin | ⟨h1, h2⟩
        · exact Or.inl hin
        · exact Or.inr ⟨by omega, by simp only [List.length_cons]; omega⟩
      · simp only [hskip, if_false] at h
        cases hr : renderBlockE ext b el ls with
        | ok ls1 =>
          rw [hr] at h
          obtain ⟨_, _, hrend, _⟩ := renderBlockE_effects ext b el ls ls1 hr
          rcases ih (i + 1) _ ls' h n hn with hin | ⟨h1, h2⟩
          · simp only [hrend] at hin
            rcases List.mem_append.1 hin with hin | hin
            · exact Or.inl hin
            · have : n = i := by simpa using hin
              exact Or.inr ⟨by omega, by simp only [List.length_cons]; omega⟩
          · exact Or.inr ⟨by omega, by simp only [List.length_cons]; omega⟩
        | error e => rw [hr] at h; cases h
    | none =>
      rw [hex] at h
      cases hr : renderBlockE ext b ls.nextEl
          { ls with nextEl := ls.nextEl + 1 } with
      | ok ls1 =>
        rw [hr] at h
        obtain ⟨_, _, hrend, _⟩ := renderBlockE_effects ext b ls.nextEl _ ls1 hr
        rcases ih (i + 1) _ ls' h n hn with hin | ⟨h1, h2⟩
        · simp only [hrend] at hin
          rcases List.mem_append.1 hin with hin | hin
          · exact Or.inl hin
          · have : n = i := by simpa using hin
            exact Or.inr ⟨by omega, by simp only [List.length_cons]; omega⟩
        · exact Or.inr ⟨by omega, by simp only [List.length_cons]; omega⟩
      | error e => rw [hr] at h; cases h

theorem removeOld_renders (ls : LoopSt) (old : BlockA) :
    (removeOld ls old).renders = ls.renders := by
  unfold removeOld
  cases lookupS ls.blockEls old.id with
  | some el =>
    by_cases hm : el ∈ ls.children
    · simp [hm]
    · simp [hm]
  | none => rfl

theorem removeTrailing_renders (olds : List BlockA) :
    ∀ ls : LoopSt, (removeTrailing olds ls).renders = ls.renders := by
  induction olds with
  | nil => intro ls; rfl
  | cons old rest ih =>
    intro ls
    unfold removeTrailing
    simp only [List.foldl_cons]
    have := ih (removeOld ls old)
    unfold removeTrailing at this
    rw [this, removeOld_renders]

/-! ## Canonical block ids -/

theorem assignIds_getElem? (bs : List RawBlockA) :
    ∀ (n k : Nat),
      (assignIds n bs)[k]? = (bs[k]?).map fun rb =>
        (⟨mkIdA (n + k) rb.type, rb.type, rb.lang, rb.content⟩ : BlockA) := by
  induction bs with
  | nil => intro n k; simp [assignIds]
  | cons rb rest ih =>
    intro n k
    cases k with
    | zero => simp [assignIds]
    | succ k =>
      have harith : n + 1 + k = n + (k + 1) := by omega
      simp only [assignIds, List.getElem?_cons_succ]
      rw [ih (n + 1) k, harith]

theorem parseBlocksA_id (text : String) (k : Nat) (b : BlockA)
    (h : (parseBlocksA text)[k]? = some b) : b.id = mkIdA k b.type := by
  unfold parseBlocksA at h
  rw [assignIds_getElem?] at h
  cases hr : (parseAAux (splitCrLf text) .outside)[k]? with
  | some rb =>
    rw [hr] at h
    simp only [Option.map_some'] at h
    have hb := Option.some.inj h
    rw [← hb]
    show mkIdA (0 + k) rb.type = mkIdA k rb.type
    rw [Nat.zero_add]
  | none => rw [hr] at h; cases h

theorem mkIdA_type_inj {n : Nat} {t t' : String}
    (h : mkIdA n t = mkIdA n t') : t = t' := by
  unfold mkIdA at h
  have hd := congrArg String.data h
  rw [String.data_append, String.data_append, String.data_append,
    String.data_append] at hd
  have hcancel := List.append_cancel_left hd
  exact congrArg String.mk hcancel

/-! ## The render-iff characterization of the update loop -/

theorem skipAny_iff (prev? : Option BlockA) (b : BlockA) :
    ((prev?.any fun p => p.id == b.id && p.content == b.content
      && p.type == b.type) = true) ↔
    (∃ p : BlockA, prev? = some p ∧ p.id = b.id ∧ p.content = b.content ∧
      p.type = b.type) := by
  cases prev? with
  | none => simp [Option.any]
  | some p => simp [Option.any, and_assoc]

theorem processBlocksE_render_iff (ext : Ext) (prevBlocks : List BlockA) :
    ∀ (bs : List BlockA) (i : Nat) (ls ls' : LoopSt),
      processBlocksE ext prevBlocks bs i ls = .ok ls' →
      (∀ (j : Nat) (p : BlockA), prevBlocks[j]? = some p →
        (lookupS ls.blockEls p.id).isSome = true) →
      (∀ (j : Nat) (p : BlockA), prevBlocks[j]? = some p →
        p.id = mkIdA j p.type) →
      (∀ (k : Nat) (b : BlockA), bs[k]? = some b →
        b.id = mkIdA (i + k) b.type) →
      (∀ n : Nat, n ∈ ls.renders → n < i) →
      ∀ (k : Nat) (b : BlockA), bs[k]? = some b →
        ((i + k) ∈ ls'.renders ↔
          ¬∃ p : BlockA, prevBlocks[i + k]? = some p ∧ p.type = b.type ∧
            p.content = b.content) := by
  intro bs
  induction bs with
  | nil => intro i ls ls' h _ _ _ _ k b hk; cases hk
  | cons b0 rest ih =>
    intro i ls ls' h hwf1 hwf2 hb hlt k b hk
    have hb0id : b0.id = mkIdA i b0.type := by
      have := hb 0 b0 (by simp)
      rwa [Nat.add_zero] at this
    unfold processBlocksE at h
    cases hex : lookupS ls.blockEls b0.id with
    | some el =>
      rw [hex] at h
      by_cases hskip : (prevBlocks[i]?.any fun p =>
          p.id == b0.id && p.content == b0.content && p.type == b0.type) = true
      · -- position i unchanged: skipped, no dispatch
        simp only [hskip, if_true] at h
        cases k with
        | zero =>
          have hbb : b0 = b := by simpa using hk
          subst hbb
          simp only [Nat.add_zero]
          constructor
          · intro hmem
            rcases processBlocksE_renders_bound ext prevBlocks rest (i + 1)
                _ ls' h i hmem with hin | ⟨h1, _⟩
            · exact absurd (hlt _ hin) (by omega)
            · omega
          · intro hnm
            exfalso
            rcases (skipAny_iff prevBlocks[i]? b0).1 hskip
              with ⟨p, hp, _, hcont, htype⟩
            exact hnm ⟨p, hp, htype, hcont⟩
        | succ k =>
          have harith : i + (k + 1) = (i + 1) + k := by omega
          rw [harith]
          exact ih (i + 1) _ ls' h hwf1 hwf2
            (fun k' b' hk' => by
              have := hb (k' + 1) b' (by simpa using hk')
              rwa [show i + (k' + 1) = i + 1 + k' from by omega] at this)
            (fun n hn => by have := hlt n hn; omega)
            k b (by simpa using hk)
      · -- position i changed (deep fields differ) with an existing element
        simp only [hskip, if_false] at h
        cases hr : renderBlockE ext b0 el ls with
        | error e => rw [hr] at h; cases h
        | ok ls1 =>
          rw [hr] at h
          obtain ⟨hels, hch, hrend, hnext⟩ :=
            renderBlockE_effects ext b0 el ls ls1 hr
          cases k with
          | zero =>
            have hbb : b0 = b := by simpa using hk
            subst hbb
            simp only [Nat.add_zero]
            constructor
            · intro _
              rintro ⟨p, hp, htype, hcont⟩
              apply hskip
              refine (skipAny_iff prevBlocks[i]? b0).2
                ⟨p, hp, ?_, hcont, htype⟩
              rw [hwf2 i p hp, hb0id, htype]
            · intro _
              refine processBlocksE_renders_mono ext prevBlocks rest (i + 1)
                _ ls' h i ?_
              show i ∈ ls1.renders ++ [i]
              exact List.mem_append_right _ (by simp)
          | succ k =>
            have harith : i + (k + 1) = (i + 1) + k := by omega
            rw [harith]
            exact ih (i + 1) _ ls' h
              (fun j p hp => by
                show (lookupS (insertS ls1.blockEls b0.id el) p.id).isSome
                  = true
                rw [hels]
                exact lookupS_isSome_insertS _ _ _ _ (hwf1 j p hp))
              hwf2
              (fun k' b' hk' => by
                have := hb (k' + 1) b' (by simpa using hk')
                rwa [show i + (k' + 1) = i + 1 + k' from by omega] at this)
              (fun n hn => by
                have hn' : n ∈ ls1.renders ++ [i] := hn
                rw [hrend] at hn'
                rcases List.mem_append.1 hn' with h1 | h1
                · have := hlt n h1; omega
                · have : n = i := by simpa using h1
                  omega)
              k b (by simpa using hk)
    | none =>
      -- no element mounted for this id: dispatched
      rw [hex] at h
      cases hr : renderBlockE ext b0 ls.nextEl
          { ls with nextEl := ls.nextEl + 1 } with
      | error e => rw [hr] at h; cases h
      | ok ls1 =>
        rw [hr] at h
        obtain ⟨hels, hch, hrend, hnext⟩ :=
          renderBlockE_effects ext b0 ls.nextEl _ ls1 hr
        cases k with
        | zero =>
          have hbb : b0 = b := by simpa using hk
          subst hbb
          simp only [Nat.add_zero]
          constructor
          · intro _
            rintro ⟨p, hp, htype, hcont⟩
            have hsome := hwf1 i p hp
            have hpid : p.id = b0.id := by rw [hwf2 i p hp, hb0id, htype]
            rw [hpid, hex] at hsome
            cases hsome
          · intro _
            refine processBlocksE_renders_mono ext prevBlocks rest (i + 1)
              _ ls' h i ?_
            show i ∈ ls1.renders ++ [i]
            exact List.mem_append_right _ (by simp)
        | succ k =>
          have harith : i + (k + 1) = (i + 1) + k := by omega
          rw [harith]
          exact ih (i + 1) _ ls' h
            (fun j p hp => by
              show (lookupS (insertS ls1.blockEls b0.id ls.nextEl) p.id).isSome
                = true
              rw [hels]
              exact lookupS_isSome_insertS _ _ _ _ (hwf1 j p hp))
            hwf2
            (fun k' b' hk' => by
              have := hb (k' + 1) b' (by simpa using hk')
              rwa [show i + (k' + 1) = i + 1 + k' from by omega] at this)
            (fun n hn => by
              have hn' : n ∈ ls1.renders ++ [i] := hn
              rw [hrend] at hn'
              rcases List.mem_append.1 hn' with h1 | h1
              · have := hlt n h1; omega
              · have : n = i := by simpa using h1
                omega)
            k b (by simpa using hk)

theorem updateA_ok_elim (ext : Ext) (st : RState) (text : String)
    (st' : RState) (rs : List Nat)
    (hok : updateA ext st text = .ok (st', rs)) :
    ∃ ls1, processBlocksE ext st.prevBlocks (parseBlocksA text) 0
        ⟨st.blockEls, st.mermaidStates, st.children, st.nextEl, []⟩ =
          .ok ls1 ∧
      rs = ls1.renders := by
  unfold updateA at hok
  cases h : processBlocksE ext st.prevBlocks (parseBlocksA text) 0
      ⟨st.blockEls, st.mermaidStates, st.children, st.nextEl, []⟩ with
  | ok ls1 =>
    rw [h] at hok
    refine ⟨ls1, rfl, ?_⟩
    have := congrArg Prod.snd (Except.ok.inj hok)
    simp only at this
    rw [← this, removeTrailing_renders]
  | error e => rw [h] at hok; cases hok

/-! ## Claim C9 -/

/-- C9: for every textual input (and every behaviour of the highlight and
diagram engines, including always-throwing ones) the update entry point
returns a result rather than an error: all sub-renderer failures are
absorbed by the catch branches inside the highlight wrapper and the mermaid
renderer. -/
theorem c9_update_total (ext : Ext) (st : RState) (text : String) :
    ∃ r, updateA ext st text = .ok r := by
  unfold updateA
  obtain ⟨ls1, h1⟩ := processBlocksE_isOk ext st.prevBlocks
    (parseBlocksA text) 0 ⟨st.blockEls, st.mermaidStates, st.children, st.nextEl, []⟩
  rw [h1]
  exact ⟨_, rfl⟩

/-! ## Claim C1 -/

/-- C1 counterexample: two successive parses of an append-only buffer (the
still-streaming fence line grows from a py tag to a python tag) whose blocks
at index zero have equal kind and equal (empty) content but different
language fields. The claim requires a Replace (deep equality fails), but the
update loop classifies the position as Unchanged: the second update
dispatches no block to renderBlock (its render list is empty) even though
the language changed. -/
theorem c1_counterexample :
    ("```py" ++ "thon" = "```python") ∧
    (updateA ⟨fun _ => .error "m", fun _ _ => .error "s"⟩ initRState
        "```py").toOption =
      some (⟨[⟨"0:code", "code", "py", ""⟩], [("0:code", 0)], [], [0], 1⟩,
        [0]) ∧
    (updateA ⟨fun _ => .error "m", fun _ _ => .error "s"⟩
        ⟨[⟨"0:code", "code", "py", ""⟩], [("0:code", 0)], [], [0], 1⟩
        "```python").toOption =
      some (⟨[⟨"0:code", "code", "python", ""⟩], [("0:code", 0)], [], [0], 1⟩,
        []) ∧
    (parseBlocksA "```py").head? ≠ (parseBlocksA "```python").head? ∧
    (parseBlocksA "```py").head?.map BlockA.type =
      (parseBlocksA "```python").head?.map BlockA.type := by
  exact ⟨rfl, rfl, rfl, by decide, rfl⟩

/-! ## Claim C6 -/

/-- C6: evaluation of the update loop at the failing input. The buffer grows
from a bare fence line (parsed as a Code block at position 0) to a mermaid
fence line (a Diagram block at the same position). The new block is rendered
into a freshly allocated element 1, but the previously mounted element 0 of
the replaced Code identity is left attached to the container (the children
list is [0, 1]), and the old identity's entry survives in the element map:
the removal loop only visits positions beyond the new block count. This
contradicts the claimed discard of the old node and RenderState on a kind
change. -/
theorem c6_stale_node_on_kind_change :
    (updateA ⟨fun _ => .error "m", fun _ _ => .error "s"⟩ initRState
        "```").toOption =
      some (⟨[⟨"0:code", "code", "", ""⟩], [("0:code", 0)], [], [0], 1⟩,
        [0]) ∧
    (updateA ⟨fun _ => .error "m", fun _ _ => .error "s"⟩
        ⟨[⟨"0:code", "code", "", ""⟩], [("0:code", 0)], [], [0], 1⟩
        "```mermaid").toOption =
      some (⟨[⟨"0:mermaid", "mermaid", "mermaid", ""⟩],
        [("0:code", 0), ("0:mermaid", 1)],
        [("0:mermaid", ⟨none, false⟩)], [0, 1], 2⟩, [0]) ∧
    (parseBlocksA "```").head?.map BlockA.type = some "code" ∧
    (parseBlocksA "```mermaid").head?.map BlockA.type = some "mermaid" ∧
    lookupS ([("0:code", 0), ("0:mermaid", 1)] : List (String × Nat))
        "0:code" = some 0 ∧
    (0 : Nat) ∈ ([0, 1] : List Nat) := by
  exact ⟨rfl, rfl, rfl, rfl, rfl, by decide⟩

/-- C1 amended: the positional diff of update classifies index i as
Unchanged (renderBlock is not invoked for it) exactly when the previous
parse has a block at i with equal type and equal content; the language field
is not compared, so blocks differing only in language are also treated as
Unchanged. Holds for every renderer state whose stored blocks carry their
canonical position ids and have mounted elements, as every state reached by
update does. -/
theorem c1_update_unchanged_iff (ext : Ext) (st : RState) (text : String)
    (st' : RState) (rs : List Nat)
    (hok : updateA ext st text = .ok (st', rs))
    (hwf1 : ∀ (j : Nat) (p : BlockA), st.prevBlocks[j]? = some p →
      (lookupS st.blockEls p.id).isSome = true)
    (hwf2 : ∀ (j : Nat) (p : BlockA), st.prevBlocks[j]? = some p →
      p.id = mkIdA j p.type) :
    ∀ (i : Nat) (b : BlockA), (parseBlocksA text)[i]? = some b →
      (i ∉ rs ↔
        ∃ p : BlockA, st.prevBlocks[i]? = some p ∧ p.type = b.type ∧
          p.content = b.content) := by
  intro i b hib
  obtain ⟨ls1, hproc, hrs⟩ := updateA_ok_elim ext st text st' rs hok
  have hiff := processBlocksE_render_iff ext st.prevBlocks
    (parseBlocksA text) 0 _ ls1 hproc hwf1 hwf2
    (fun k b' hk => by
      rw [Nat.zero_add]
      exact parseBlocksA_id text k b' hk)
    (fun n hn => absurd hn (List.not_mem_nil n))
    i b hib
  rw [Nat.zero_add] at hiff
  rw [hrs]
  constructor
  · intro hni
    by_contra hne
    exact hni (hiff.2 hne)
  · intro hex hmem
    exact (hiff.1 hmem) hex

/-- Witness for C1 amended: the concrete python-to-ruby update run; index 0
is classified Unchanged (empty render list) and the previous block at 0 has
the same type and content. -/
theorem c1_witness :
    (0 ∉ ([] : List Nat) ↔
      ∃ p : BlockA,
        ([⟨"0:code", "code", "python", "x"⟩] : List BlockA)[0]? = some p ∧
          p.type = "code" ∧ p.content = "x") := by
  have hwf1 : ∀ (j : Nat) (p : BlockA),
      ([⟨"0:code", "code", "python", "x"⟩] : List BlockA)[j]? = some p →
      (lookupS ([("0:code", 0)] : List (String × Nat)) p.id).isSome = true := by
    intro j p hp
    cases j with
    | zero =>
      have : (⟨"0:code", "code", "python", "x"⟩ : BlockA) = p := by
        simpa using hp
      rw [← this]
      rfl
    | succ n => simp at hp
  have hwf2 : ∀ (j : Nat) (p : BlockA),
      ([⟨"0:code", "code", "python", "x"⟩] : List BlockA)[j]? = some p →
      p.id = mkIdA j p.type := by
    intro j p hp
    cases j with
    | zero =>
      have : (⟨"0:code", "code", "python", "x"⟩ : BlockA) = p := by
        simpa using hp
      rw [← this]
      rfl
    | succ n => simp at hp
  exact c1_update_unchanged_iff
    ⟨fun _ => .error "m", fun _ _ => .error "s"⟩
    ⟨[⟨"0:code", "code", "python", "x"⟩], [("0:code", 0)], [], [0], 1⟩
    "```ruby\nx"
    ⟨[⟨"0:code", "code", "ruby", "x"⟩], [("0:code", 0)], [], [0], 1⟩ []
    rfl hwf1 hwf2 0 ⟨"0:code", "code", "ruby", "x"⟩ rfl

/-! ## Claim C3 -/

/-- The anchored list-open regex implies the unanchored list-continuation
regex on the same line (the marker found after the leading whitespace is a
marker at some position). This is what makes the one-line-per-step scanning
of parseAAux agree with the source's index loop, whose continuation scan
re-tests the opening line: the re-test always succeeds. -/
theorem listOpenA_imp_listContA (l : String) (h : listOpenA l = true) :
    listContA l = true := by
  unfold listContA
  rw [List.any_eq_true]
  exact ⟨l.toList.dropWhile isJsSpace,
    (List.mem_tails _ _).2 (List.dropWhile_suffix isJsSpace), h⟩

theorem take_pred_cons {α : Type} (x : α) (r r' : List α)
    (h : r'.take (r.length - 1) = r.take (r.length - 1)) :
    (x :: r').take ((x :: r).length - 1) =
      (x :: r).take ((x :: r).length - 1) := by
  cases r with
  | nil => simp
  | cons y ys =>
    simp only [List.length_cons, Nat.add_sub_cancel] at h ⊢
    simp only [List.take_succ_cons]
    rw [h]

/-- One block list is produced per scanning region, so under pure line-list
extension every region that closes strictly inside the shorter list closes
identically in the longer one, and only the final block can differ: the
parse of the extended line list agrees with the original on all blocks
before the last. -/
theorem parseAAux_prefix (t : List String) :
    ∀ (l : List String) (mode : AMode),
      (parseAAux (l ++ t) mode).take ((parseAAux l mode).length - 1) =
        (parseAAux l mode).take ((parseAAux l mode).length - 1) := by
  intro l
  induction l with
  | nil =>
    intro mode
    cases mode <;> simp [parseAAux, closeA]
  | cons line rest ih =>
    intro mode
    cases mode with
    | outside =>
      simp only [List.cons_append, parseAAux]
      exact ih (dispatchA line)
    | fence type lang acc =>
      simp only [List.cons_append, parseAAux]
      by_cases hcl : fenceCloseA line = true
      · simp only [hcl, if_true]
        exact take_pred_cons _ _ _ (ih .outside)
      · simp only [hcl, if_false]
        exact ih (.fence type lang (acc ++ [line]))
    | list acc =>
      simp only [List.cons_append, parseAAux]
      by_cases hc : listContA line = true
      · simp only [hc, if_true]
        exact ih (.list (acc ++ [line]))
      · simp only [hc, if_false]
        exact take_pred_cons _ _ _ (ih (dispatchA line))
    | quote acc =>
      simp only [List.cons_append, parseAAux]
      by_cases hc : quoteA line = true
      · simp only [hc, if_true]
        exact ih (.quote (acc ++ [line]))
      · simp only [hc, if_false]
        exact take_pred_cons _ _ _ (ih (dispatchA line))
    | heading acc =>
      simp only [List.cons_append, parseAAux]
      by_cases hc : isBlankLine line = true
      · simp only [hc, not_true, if_neg, if_false]
        exact take_pred_cons _ _ _ (ih (dispatchA line))
      · simp only [hc, not_false_iff, if_pos, if_true]
        exact ih (.heading (acc ++ [line]))
    | para acc =>
      simp only [List.cons_append, parseAAux]
      by_cases hc : paraContA line = true
      · simp only [hc, if_true]
        exact ih (.para (acc ++ [line]))
      · simp only [hc, if_false]
        exact take_pred_cons _ _ _ (ih (dispatchA line))

theorem assignIds_length (bs : List RawBlockA) :
    ∀ n : Nat, (assignIds n bs).length = bs.length := by
  induction bs with
  | nil => intro n; rfl
  | cons b rest ih => intro n; simp [assignIds, ih]

theorem assignIds_take (bs : List RawBlockA) :
    ∀ (n k : Nat), (assignIds n bs).take k = assignIds n (bs.take k) := by
  induction bs with
  | nil => intro n k; simp [assignIds]
  | cons b rest ih =>
    intro n k
    cases k with
    | zero => simp [assignIds]
    | succ k => simp [assignIds, List.take_succ_cons, ih]

/-- C3 counterexample: the buffer of a list item followed by a bare dash
parses into two blocks, but appending a suffix that completes the dash into
a second list item merges the tail into the preceding list block, changing
block 0 of the parse: the first n-1 blocks are not stable under extension. -/
theorem c3_counterexample :
    ("- a\n-" ++ " b" = "- a\n- b") ∧
    (parseBlocksA "- a\n-").length = 2 ∧
    (parseBlocksA ("- a\n-" ++ " b")).take
        ((parseBlocksA "- a\n-").length - 1) ≠
      (parseBlocksA "- a\n-").take ((parseBlocksA "- a\n-").length - 1) := by
  refine ⟨rfl, rfl, by decide⟩

/-- C3 amended: prefix stability holds at the line level. Whenever appending
the suffix does not modify any existing line of the buffer (the line list of
the extended buffer extends the line list of the original, which fails only
when the suffix mutates the final line), the first n-1 blocks of the two
parses agree, n being the original block count. At the raw string level the
invariant fails, because a mutated final line can merge into a preceding
list block (see the counterexample). -/
theorem c3_segment_prefix_stable (b ext : String) (t : List String)
    (hlines : splitCrLf (b ++ ext) = splitCrLf b ++ t) :
    (parseBlocksA (b ++ ext)).take ((parseBlocksA b).length - 1) =
      (parseBlocksA b).take ((parseBlocksA b).length - 1) := by
  unfold parseBlocksA
  rw [hlines, assignIds_length, assignIds_take, assignIds_take,
    parseAAux_prefix t (splitCrLf b) .outside]

/-- Witness for C3 amended: a heading block, a blank line and a growing
paragraph; the appended suffix adds a whole new line, so the line list
extends and the first block is untouched. -/
theorem c3_witness :
    (parseBlocksA ("# t\n\nhello" ++ "\nworld")).take
        ((parseBlocksA "# t\n\nhello").length - 1) =
      (parseBlocksA "# t\n\nhello").take
        ((parseBlocksA "# t\n\nhello").length - 1) :=
  c3_segment_prefix_stable "# t\n\nhello" "\nworld" ["world"] rfl

/-! ## Claim C4 -/

theorem char_ofNat_toNat {n : Nat} (hvalid : n.isValidChar) :
    (Char.ofNat n).toNat = n := by
  unfold Char.ofNat
  rw [dif_pos hvalid]
  unfold Char.ofNatAux Char.toNat
  simp [UInt32.toNat, BitVec.toNat_ofNatLt]

theorem char_toLower_idem (c : Char) : (c.toLower).toLower = c.toLower := by
  by_cases h : c.toNat ≥ 65 ∧ c.toNat ≤ 90
  · have h1 : c.toLower = Char.ofNat (c.toNat + 32) := by
      unfold Char.toLower
      rw [if_pos h]
    have hval : (Char.ofNat (c.toNat + 32)).toNat = c.toNat + 32 :=
      char_ofNat_toNat (Or.inl (by omega))
    rw [h1]
    unfold Char.toLower
    rw [hval, if_neg (by omega)]
  · have h1 : c.toLower = c := by
      unfold Char.toLower
      rw [if_neg h]
    rw [h1, h1]

theorem jsLower_idem (s : String) : jsLower (jsLower s) = jsLower s := by
  unfold jsLower
  show String.mk ((s.toList.map Char.toLower).map Char.toLower) = _
  rw [List.map_map]
  congr 1
  exact List.map_congr_left fun c _ => char_toLower_idem c

theorem takeWhile_of_all_true {α : Type} (p : α → Bool) :
    ∀ l : List α, (∀ x ∈ l, p x = true) → l.takeWhile p = l := by
  intro l
  induction l with
  | nil => intro _; rfl
  | cons a l ih =>
    intro h
    simp only [List.takeWhile_cons, h a (by simp), if_true]
    rw [ih fun x hx => h x (by simp [hx])]

theorem dropWhile_of_all_true {α : Type} (p : α → Bool) :
    ∀ l : List α, (∀ x ∈ l, p x = true) → l.dropWhile p = [] := by
  intro l
  induction l with
  | nil => intro _; rfl
  | cons a l ih =>
    intro h
    simp only [List.dropWhile_cons, h a (by simp), if_true]
    exact ih fun x hx => h x (by simp [hx])

theorem dropWhile_of_all_false {α : Type} (p : α → Bool) :
    ∀ l : List α, (∀ x ∈ l, p x = false) → l.dropWhile p = l := by
  intro l
  cases l with
  | nil => intro _; rfl
  | cons a l =>
    intro h
    simp only [List.dropWhile_cons, h a (by simp)]
    simp

theorem takeWhile_replicate_append {α : Type} [DecidableEq α] (a : α)
    (m : Nat) (rest : List α)
    (h : ∀ x, rest.head? = some x → x ≠ a) :
    (List.replicate m a ++ rest).takeWhile (· = a) = List.replicate m a := by
  induction m with
  | zero =>
    simp only [List.replicate, List.nil_append]
    cases rest with
    | nil => rfl
    | cons x l =>
      have hx : x ≠ a := h x rfl
      simp [List.takeWhile_cons, hx]
  | succ m ih =>
    rw [List.replicate_succ]
    simp only [List.cons_append, List.takeWhile_cons]
    simp [ih]

theorem dropWhile_replicate_append {α : Type} [DecidableEq α] (a : α)
    (m : Nat) (rest : List α)
    (h : ∀ x, rest.head? = some x → x ≠ a) :
    (List.replicate m a ++ rest).dropWhile (· = a) = rest := by
  induction m with
  | zero =>
    simp only [List.replicate, List.nil_append]
    cases rest with
    | nil => rfl
    | cons x l =>
      have hx : x ≠ a := h x rfl
      simp [List.dropWhile_cons, hx]
  | succ m ih =>
    rw [List.replicate_succ]
    simp only [List.cons_append, List.dropWhile_cons]
    simp [ih]

theorem splitLfAux_append (rest : List Char) :
    ∀ (cs acc : List Char), (∀ x ∈ cs, x ≠ '\n') →
      splitLfAux acc (cs ++ '\n' :: rest) =
        String.mk (acc.reverse ++ cs) :: splitLfAux [] rest := by
  intro cs
  induction cs with
  | nil => intro acc _; simp [splitLfAux]
  | cons c cs' ih =>
    intro acc h
    have hc : c ≠ '\n' := h c (by simp)
    rw [List.cons_append]
    rw [show splitLfAux acc (c :: (cs' ++ '\n' :: rest)) =
      if c = '\n' then String.mk acc.reverse :: splitLfAux [] (cs' ++ '\n' :: rest)
      else splitLfAux (c :: acc) (cs' ++ '\n' :: rest) from rfl]
    rw [if_neg hc]
    rw [ih (c :: acc) fun x hx => h x (by simp [hx])]
    simp

theorem splitLf_line_append (line body : String)
    (h : ∀ x ∈ line.toList, x ≠ '\n') :
    splitLf (line ++ "\n" ++ body) = line :: splitLf body := by
  unfold splitLf
  have hdata : (line ++ "\n" ++ body).toList =
      line.toList ++ '\n' :: body.toList := by
    show (line ++ "\n" ++ body).data = line.data ++ '\n' :: body.data
    rw [String.data_append, String.data_append]
    simp
  rw [hdata, splitLfAux_append body.toList line.toList [] h]
  rfl

theorem jsTrim_self (s : String)
    (h : ∀ x ∈ s.toList, isJsSpace x = false) : jsTrim s = s := by
  unfold jsTrim jsTrimList
  rw [dropWhile_of_all_false isJsSpace s.toList h,
    dropWhile_of_all_false isJsSpace s.toList.reverse
      (fun x hx => h x (List.mem_reverse.1 hx)),
    List.reverse_reverse]
  rfl

theorem v2Lang_nospace (tag : String)
    (h : ∀ x ∈ tag.toList, isJsSpace x = false) : v2Lang tag "" = tag := by
  by_cases htag : tag = ""
  · subst htag; rfl
  · unfold v2Lang
    rw [jsTrim_self tag h, show jsTrim "" = "" from rfl]
    show (match languageDashSearch ((tag ++ " " ++ "").toList) with
      | some w => if tag = "" then w else tag
      | none => tag) = tag
    split <;> simp [htag]

theorem parseV2Aux_fence_head (lines : List String) :
    ∀ (ticks lang : String) (acc : List String),
      ∃ (body : String) (closed : Bool),
        (parseV2Aux lines (.fence ticks lang acc)).head? =
          some (classifyV2 lang body closed) := by
  induction lines with
  | nil => intro t l acc; exact ⟨joinLf acc, false, rfl⟩
  | cons line rest ih =>
    intro t l acc
    by_cases hcl : (strStartsWith line t = true ∧ jsTrim line = t)
    · refine ⟨joinLf acc, true, ?_⟩
      simp only [parseV2Aux, if_pos hcl]
      rfl
    · obtain ⟨body, closed, hb⟩ := ih t l (acc ++ [line])
      refine ⟨body, closed, ?_⟩
      simp only [parseV2Aux, if_neg hcl]
      exact hb

theorem fenceRunV2_ticks_tag (c : Char) (m : Nat) (tag : String)
    (htag : ∀ x ∈ tag.toList, isJsSpace x = false ∧ x ≠ '`' ∧ x ≠ '~')
    (hct : ∀ x ∈ tag.toList, x ≠ c) :
    fenceRunV2 c (List.replicate (m + 3) c ++ tag.toList) =
      some (String.mk (List.replicate (m + 3) c), tag, "") := by
  have hhead : ∀ x, tag.toList.head? = some x → x ≠ c := by
    intro x hx
    cases htl : tag.toList with
    | nil => rw [htl] at hx; cases hx
    | cons y l =>
      rw [htl] at hx
      have : y = x := by simpa using hx
      subst this
      exact hct y (by rw [htl]; simp)
  unfold fenceRunV2
  rw [takeWhile_replicate_append c (m + 3) tag.toList hhead]
  rw [if_pos (by rw [List.length_replicate]; omega)]
  rw [dropWhile_replicate_append c (m + 3) tag.toList hhead]
  rw [dropWhile_of_all_false isJsSpace tag.toList
    (fun x hx => (htag x hx).1)]
  rw [takeWhile_of_all_true _ tag.toList
    (fun x hx => by simp [(htag x hx).1, (htag x hx).2.1])]
  rw [dropWhile_of_all_true _ tag.toList
    (fun x hx => by simp [(htag x hx).1, (htag x hx).2.1])]
  rfl

theorem fenceOpenV2_ticks_tag (c : Char) (n : Nat) (tag : String)
    (hc : c = '`' ∨ c = '~') (hn : 3 ≤ n)
    (htag : ∀ x ∈ tag.toList, isJsSpace x = false ∧ x ≠ '`' ∧ x ≠ '~') :
    fenceOpenV2 (String.mk (List.replicate n c) ++ tag) =
      some (String.mk (List.replicate n c), tag, "") := by
  obtain ⟨m, rfl⟩ : ∃ m, n = m + 3 := ⟨n - 3, by omega⟩
  have hdata : (String.mk (List.replicate (m + 3) c) ++ tag).toList =
      List.replicate (m + 3) c ++ tag.toList := by
    show (String.mk (List.replicate (m + 3) c) ++ tag).data = _
    rw [String.data_append]
    rfl
  have hrep : List.replicate (m + 3) c = c :: List.replicate (m + 2) c := by
    rw [show m + 3 = (m + 2) + 1 from rfl, List.replicate_succ]
  have hct : ∀ x ∈ tag.toList, x ≠ c := by
    intro x hx
    rcases hc with h | h
    · rw [h]; exact (htag x hx).2.1
    · rw [h]; exact (htag x hx).2.2
  unfold fenceOpenV2
  rw [hdata, hrep]
  rcases hc with h | h <;> subst h
  · show fenceRunV2 '`' ('`' :: List.replicate (m + 2) '`' ++ tag.toList) = _
    rw [← hrep]
    exact fenceRunV2_ticks_tag '`' m tag htag hct
  · show fenceRunV2 '~' ('~' :: List.replicate (m + 2) '~' ++ tag.toList) = _
    rw [← hrep]
    exact fenceRunV2_ticks_tag '~' m tag htag hct

theorem classifyV2_spec (t : String) (cnt : String) (cl : Bool) :
    blockKindV2 (classifyV2 (jsLower t) cnt cl) =
        (specTagClass (jsLower t)).1 ∧
      blockLangV2 (classifyV2 (jsLower t) cnt cl) =
        (specTagClass (jsLower t)).2 := by
  have hidem : jsLower (jsLower t) = jsLower t := jsLower_idem t
  have hsg : supportsGraphviz (jsLower t) =
      (decide (jsLower t = "dot" ∨ jsLower t = "graphviz"
        ∨ jsLower t = "viz")) := by
    unfold supportsGraphviz
    rw [hidem]
  generalize hl : jsLower t = l at hsg ⊢
  unfold classifyV2 specTagClass
  by_cases h1 : l = "mermaid"
  · subst h1; simp [hsg, blockKindV2, blockLangV2]
  · by_cases h2 : l = "dot"
    · subst h2; simp [hsg, blockKindV2, blockLangV2]
    · by_cases h3 : l = "graphviz"
      · subst h3; simp [hsg, blockKindV2, blockLangV2]
      · by_cases h4 : l = "viz"
        · subst h4; simp [hsg, blockKindV2, blockLangV2]
        · by_cases h5 : l = "svg"
          · subst h5; simp [hsg, blockKindV2, blockLangV2]
          · by_cases h6 : l = "d3-graphviz"
            · subst h6; simp [hsg, blockKindV2, blockLangV2]
            · by_cases h7 : l = "d3"
              · subst h7; simp [hsg, blockKindV2, blockLangV2]
              · simp [hsg, h1, h2, h3, h4, h5, h6, h7,
                  blockKindV2, blockLangV2]

/-- C4 counterexample: an opening fence with an empty tag. The claim's rule
that every non-diagram tag, including the empty one, becomes the block's
language would give language equal to the empty string; the segmenter
instead substitutes the default text tag. -/
theorem c4_counterexample :
    (parseBlocksV2 "```\nx").head? = some (.code "text" "x" false) ∧
      (parseBlocksV2 "```\nx").head? ≠ some (.code "" "x" false) := by
  exact ⟨rfl, by decide⟩

/-- C4 amended: every line of three or more identical fence characters
(backticks or tildes) followed by an optional language tag opens a fenced
block: the head block of the parse is classified from the lowercased tag
exactly as the spec-side classification states, with tags in the closed
diagram set becoming Diagram blocks, every other non-empty tag becoming a
Code block with that tag as language, and the empty tag becoming a Code
block with language text. -/
theorem c4_fence_line_classification (c : Char) (n : Nat) (tag body : String)
    (hc : c = '`' ∨ c = '~') (hn : 3 ≤ n)
    (htag : ∀ x ∈ tag.toList, isJsSpace x = false ∧ x ≠ '`' ∧ x ≠ '~') :
    ∃ bk : BlockV2,
      (parseBlocksV2
          (String.mk (List.replicate n c) ++ tag ++ "\n" ++ body)).head? =
        some bk ∧
      blockKindV2 bk = (specTagClass (jsLower tag)).1 ∧
      blockLangV2 bk = (specTagClass (jsLower tag)).2 := by
  have hnewline : ∀ x ∈ (String.mk (List.replicate n c) ++ tag).toList,
      x ≠ '\n' := by
    intro x hx
    have hx' : x ∈ List.replicate n c ++ tag.toList := by
      have : (String.mk (List.replicate n c) ++ tag).toList =
          List.replicate n c ++ tag.toList := by
        show (String.mk (List.replicate n c) ++ tag).data = _
        rw [String.data_append]
        rfl
      rwa [this] at hx
    rcases List.mem_append.1 hx' with hrep | htg
    · have := List.eq_of_mem_replicate hrep
      subst this
      rcases hc with h | h <;> rw [h] <;> decide
    · have := (htag x htg).1
      intro hfalse
      rw [hfalse] at this
      simp [isJsSpace] at this
  unfold parseBlocksV2
  rw [splitLf_line_append _ body hnewline]
  have hfence := fenceOpenV2_ticks_tag c n tag hc hn htag
  simp only [parseV2Aux, hfence]
  rw [v2Lang_nospace tag fun x hx => (htag x hx).1]
  obtain ⟨bd, cls, hh⟩ := parseV2Aux_fence_head (splitLf body)
    (String.mk (List.replicate n c)) (jsLower tag) []
  refine ⟨classifyV2 (jsLower tag) bd cls, ?_, (classifyV2_spec tag bd cls).1,
    (classifyV2_spec tag bd cls).2⟩
  simpa [flushV2] using hh

/-- Witness for C4 amended: a mixed-case mermaid tag on a three-backtick
fence line followed by an open diagram body. -/
theorem c4_witness :
    (parseBlocksV2
        (String.mk (List.replicate 3 '`') ++ "Mermaid" ++ "\n" ++ "graph")).head?
        = some (.diagram "mermaid" "mermaid" "graph" false) ∧
      blockKindV2 (.diagram "mermaid" "mermaid" "graph" false) =
        (specTagClass (jsLower "Mermaid")).1 ∧
      blockLangV2 (.diagram "mermaid" "mermaid" "graph" false) =
        (specTagClass (jsLower "Mermaid")).2 := by
  obtain ⟨bk, h1, h2, h3⟩ := c4_fence_line_classification '`' 3 "Mermaid"
    "graph" (Or.inl rfl) (by omega) (by decide)
  have hev : (parseBlocksV2
      (String.mk (List.replicate 3 '`') ++ "Mermaid" ++ "\n" ++ "graph")).head?
      = some (.diagram "mermaid" "mermaid" "graph" false) := rfl
  rw [hev] at h1
  have hbk := Option.some.inj h1
  rw [← hbk] at h2 h3
  exact ⟨hev, h2, h3⟩

/-! ## Claim C5 -/

/-- C5: the buffer of an opening python fence with no closing fence segments
into exactly one Code block with language python, closed false, containing
the single code line; shown for the vanilla segmenter (which carries the
closed flag) and, minus the unstored closed flag, for the segmenter of
streaming-markdown.js. -/
theorem c5_unterminated_python_fence :
    parseBlocksV2 "```python\nprint(1)" =
        [.code "python" "print(1)" false] ∧
      parseBlocksA "```python\nprint(1)" =
        [⟨"0:code", "code", "python", "print(1)"⟩] := by
  constructor <;> rfl

end Sonata
